import Mathlib

/-!
Shallow embedding of the rfcli tool (src/main.rs) and verification of its
natural-language specification.

Text is modelled as `List Char`.  The functions below are direct
translations of the Rust source: `clean_rfc_text` (normalization),
`fetch_rfc` (document cache), the index-refresh and candidate-filter steps
of `fuzzy_select_rfc`, the selected-line parse, the `tldr` prompt
construction, and the `read` session loop as a step function.
-/

abbrev Text : Type := List Char

/-- Newline test used by the normalizer (`\n{3,}` regex and line splitting). -/
def isNl (c : Char) : Bool := c == '\n'

@[simp] theorem isNl_iff (c : Char) : isNl c = true ↔ c = '\n' := by
  simp [isNl]

@[simp] theorem isNl_nl : isNl '\n' = true := by decide

/-- Split a text on newline characters.  `splitNl "a\nb" = ["a", "b"]`,
`splitNl "" = [""]`, `splitNl "a\n" = ["a", ""]` — the segment view used by
the multi-line regexes of `clean_rfc_text`. -/
def splitNl : Text → List Text
  | [] => [[]]
  | c :: cs =>
    if c = '\n' then [] :: splitNl cs
    else
      match splitNl cs with
      | [] => [[c]]
      | l :: ls => (c :: l) :: ls

/-- Join segments back with single newlines; inverse of `splitNl`. -/
def joinNl : List Text → Text
  | [] => []
  | [l] => l
  | l :: l₂ :: ls => l ++ '\n' :: joinNl (l₂ :: ls)

theorem splitNl_ne_nil (s : Text) : splitNl s ≠ [] := by
  match s with
  | [] => simp [splitNl]
  | c :: cs =>
    simp only [splitNl]
    split
    · simp
    · split <;> simp

theorem splitNl_cons_of_nl (cs : Text) : splitNl ('\n' :: cs) = [] :: splitNl cs := by
  simp [splitNl]

theorem splitNl_cons_of_ne (c : Char) (cs : Text) (h : c ≠ '\n') :
    splitNl (c :: cs) =
      match splitNl cs with
      | [] => [[c]]
      | l :: ls => (c :: l) :: ls := by
  simp [splitNl, h]

theorem joinNl_cons (l : Text) (ls : List Text) (h : ls ≠ []) :
    joinNl (l :: ls) = l ++ '\n' :: joinNl ls := by
  match ls with
  | [] => exact absurd rfl h
  | l₂ :: ls => rfl

theorem joinNl_splitNl (s : Text) : joinNl (splitNl s) = s := by
  induction s with
  | nil => rfl
  | cons c cs ih =>
    by_cases h : c = '\n'
    · subst h
      rw [splitNl_cons_of_nl, joinNl_cons _ _ (splitNl_ne_nil cs), ih]
      rfl
    · rw [splitNl_cons_of_ne c cs h]
      rcases hsp : splitNl cs with _ | ⟨l, ls⟩
      · exact absurd hsp (splitNl_ne_nil cs)
      · rcases ls with _ | ⟨l₂, ls⟩
        · have := ih
          rw [hsp] at this
          simpa [joinNl] using this
        · have := ih
          rw [hsp] at this
          rw [joinNl_cons _ _ (by simp)] at this ⊢
          simpa using this

theorem no_nl_of_mem_splitNl {s : Text} {l : Text} (h : l ∈ splitNl s) : '\n' ∉ l := by
  induction s generalizing l with
  | nil =>
    simp [splitNl] at h
    subst h
    simp
  | cons c cs ih =>
    by_cases hc : c = '\n'
    · subst hc
      rw [splitNl_cons_of_nl] at h
      rcases List.mem_cons.mp h with h | h
      · subst h; simp
      · exact ih h
    · rw [splitNl_cons_of_ne c cs hc] at h
      rcases hsp : splitNl cs with _ | ⟨l₀, ls⟩
      · exact absurd hsp (splitNl_ne_nil cs)
      · rw [hsp] at h
        have hmem0 : l₀ ∈ splitNl cs := by rw [hsp]; exact List.mem_cons_self l₀ ls
        rcases List.mem_cons.mp h with h | h
        · subst h
          intro hmem
          rcases List.mem_cons.mp hmem with h2 | h2
          · exact hc h2.symm
          · exact ih hmem0 h2
        · have : l ∈ splitNl cs := by rw [hsp]; exact List.mem_cons_of_mem l₀ h
          exact ih this

theorem splitNl_no_nl (l : Text) (hl : '\n' ∉ l) : splitNl l = [l] := by
  induction l with
  | nil => rfl
  | cons c cs ih =>
    have hc : c ≠ '\n' := fun h => hl (h ▸ List.mem_cons_self c cs)
    rw [splitNl_cons_of_ne c cs hc, ih (fun h => hl (List.mem_cons_of_mem c h))]

theorem splitNl_append_nl (l t : Text) (hl : '\n' ∉ l) :
    splitNl (l ++ '\n' :: t) = l :: splitNl t := by
  induction l with
  | nil => simpa using splitNl_cons_of_nl t
  | cons c cs ih =>
    have hc : c ≠ '\n' := fun h => hl (h ▸ List.mem_cons_self c cs)
    rw [List.cons_append, splitNl_cons_of_ne c _ hc,
      ih (fun h => hl (List.mem_cons_of_mem c h))]

theorem splitNl_joinNl (ls : List Text) (hne : ls ≠ [])
    (hnl : ∀ l ∈ ls, '\n' ∉ l) : splitNl (joinNl ls) = ls := by
  induction ls with
  | nil => exact absurd rfl hne
  | cons l ls ih =>
    rcases ls with _ | ⟨l₂, ls⟩
    · exact splitNl_no_nl l (hnl l (by simp))
    · rw [joinNl_cons _ _ (by simp),
        splitNl_append_nl l _ (hnl l (by simp)),
        ih (by simp) (fun x hx => hnl x (List.mem_cons_of_mem l hx))]

theorem dropWhile_length_le (p : Char → Bool) (l : Text) :
    (l.dropWhile p).length ≤ l.length := by
  induction l with
  | nil => simp
  | cons c cs ih =>
    rw [List.dropWhile_cons]
    split
    · exact Nat.le_succ_of_le ih
    · exact Nat.le_refl _

theorem head?_dropWhile_ne {p : Char → Bool} {l : Text} {x : Char}
    (h : (l.dropWhile p).head? = some x) : p x = false := by
  induction l with
  | nil => simp [List.dropWhile] at h
  | cons c cs ih =>
    rw [List.dropWhile_cons] at h
    split at h
    · exact ih h
    · simp at h
      subst h
      simp_all

theorem takeWhile_isNl_replicate (cs : Text) :
    cs.takeWhile isNl = List.replicate (cs.takeWhile isNl).length '\n' :=
  List.eq_replicate_length.mpr fun b hb => by
    have := List.mem_takeWhile_imp hb
    simpa using this

/-- Output of one maximal newline run of length `n` under the `\n{3,} -> \n\n`
regex replacement: two newlines when the run has three or more, else the run. -/
def nlRun (n : Nat) : Text := List.replicate (if 3 ≤ n then 2 else n) '\n'

/-- Accumulator pass for the newline-collapsing regex: `n` counts the pending
newline run. -/
def collapseAux : Nat → Text → Text
  | n, [] => nlRun n
  | n, c :: cs =>
    if c = '\n' then collapseAux (n + 1) cs
    else nlRun n ++ c :: collapseAux 0 cs

/-- The `\n{3,} -> \n\n` regex replacement of `clean_rfc_text`: every maximal
run of newlines of length at least three becomes exactly two newlines. -/
def collapseNl (s : Text) : Text := collapseAux 0 s

theorem collapseNl_nil : collapseNl [] = [] := rfl

theorem collapseAux_run (cs : Text) : ∀ m : Nat,
    collapseAux m cs =
      nlRun (m + (cs.takeWhile isNl).length) ++
        (match cs.dropWhile isNl with
         | [] => []
         | c :: cs' => c :: collapseAux 0 cs') := by
  induction cs with
  | nil => intro m; simp [collapseAux, List.takeWhile_nil, List.dropWhile_nil]
  | cons c cs ih =>
    intro m
    by_cases hc : c = '\n'
    · subst hc
      rw [collapseAux, if_pos rfl, ih (m + 1),
        List.takeWhile_cons_of_pos (by simp), List.dropWhile_cons_of_pos (by simp)]
      have : m + 1 + (cs.takeWhile isNl).length = m + ('\n' :: cs.takeWhile isNl).length := by
        simp
        omega
      rw [this]
    · have hb : isNl c = false := by simp [isNl, hc]
      rw [collapseAux, if_neg hc,
        List.takeWhile_cons_of_neg (by simp [hb]), List.dropWhile_cons_of_neg (by simp [hb])]
      simp

theorem collapseNl_cons_nl (cs : Text) :
    collapseNl ('\n' :: cs) =
      (if 2 ≤ (cs.takeWhile isNl).length then ['\n', '\n']
       else '\n' :: cs.takeWhile isNl) ++ collapseNl (cs.dropWhile isNl) := by
  show collapseAux 0 ('\n' :: cs) = _
  rw [collapseAux, if_pos rfl, collapseAux_run cs 1]
  have hrun : nlRun (1 + (cs.takeWhile isNl).length) =
      (if 2 ≤ (cs.takeWhile isNl).length then ['\n', '\n']
       else '\n' :: cs.takeWhile isNl) := by
    unfold nlRun
    by_cases h2 : 2 ≤ (cs.takeWhile isNl).length
    · rw [if_pos h2, if_pos (by omega)]
      rfl
    · rw [if_neg h2, if_neg (by omega)]
      have : 1 + (cs.takeWhile isNl).length = (cs.takeWhile isNl).length + 1 := by omega
      rw [this, List.replicate_succ]
      rw [← takeWhile_isNl_replicate cs]
  rw [hrun]
  congr 1
  rcases hdw : cs.dropWhile isNl with _ | ⟨d, ds⟩
  · rw [collapseNl_nil]
  · have hd : d ≠ '\n' := by
      have := head?_dropWhile_ne (p := isNl) (l := cs) (x := d) (by rw [hdw]; rfl)
      simpa [isNl] using this
    show d :: collapseAux 0 ds = collapseAux 0 (d :: ds)
    rw [collapseAux, if_neg hd]
    rfl

theorem collapseNl_cons_ne (c : Char) (cs : Text) (h : c ≠ '\n') :
    collapseNl (c :: cs) = c :: collapseNl cs := by
  show collapseAux 0 (c :: cs) = _
  rw [collapseAux, if_neg h]
  rfl

theorem collapseNl_head? (s : Text) : (collapseNl s).head? = s.head? := by
  match s with
  | [] => rw [collapseNl_nil]
  | c :: cs =>
    by_cases h : c = '\n'
    · subst h
      rw [collapseNl_cons_nl]
      split <;> simp
    · rw [collapseNl_cons_ne c cs h]
      simp

/-- Does the text start with two newline characters? -/
def startsTwoNl (l : Text) : Bool :=
  l.head? == some '\n' && l.tail.head? == some '\n'

/-- Does the text contain three consecutive newline characters anywhere? -/
def hasTriple : Text → Bool
  | [] => false
  | c :: cs => (isNl c && startsTwoNl cs) || hasTriple cs

theorem startsTwoNl_of_head_ne {l : Text} (h : l.head? ≠ some '\n') :
    startsTwoNl l = false := by
  simp [startsTwoNl]
  intro h2
  exact absurd h2 h

theorem hasTriple_cons (c : Char) (cs : Text) :
    hasTriple (c :: cs) = ((isNl c && startsTwoNl cs) || hasTriple cs) := rfl

theorem hasTriple_nl_cons {q : Text} (hq : q.head? ≠ some '\n') :
    hasTriple ('\n' :: q) = hasTriple q := by
  rw [hasTriple_cons, startsTwoNl_of_head_ne hq]
  simp

theorem hasTriple_two_nl_cons {q : Text} (hq : q.head? ≠ some '\n') :
    hasTriple ('\n' :: '\n' :: q) = hasTriple q := by
  rw [hasTriple_cons]
  have h1 : startsTwoNl ('\n' :: q) = false := by
    simp [startsTwoNl]
    intro h2
    exact absurd h2 hq
  rw [h1, hasTriple_nl_cons hq]
  simp

theorem hasTriple_append_right {a b : Text} (h : hasTriple (a ++ b) = false) :
    hasTriple b = false := by
  induction a with
  | nil => exact h
  | cons c cs ih =>
    rw [List.cons_append, hasTriple_cons] at h
    exact ih (by simp at h; exact h.2)

theorem hasTriple_collapseNl_aux :
    ∀ n (s : Text), s.length ≤ n → hasTriple (collapseNl s) = false := by
  intro n
  induction n with
  | zero =>
    intro s hs
    have hnil : s = [] := List.eq_nil_of_length_eq_zero (Nat.le_zero.mp hs)
    subst hnil
    rw [collapseNl_nil]
    rfl
  | succ n ih =>
    intro s hs
    match s with
    | [] => rw [collapseNl_nil]; rfl
    | c :: cs =>
      by_cases hc : c = '\n'
      · subst hc
        rw [collapseNl_cons_nl]
        have hlen : (cs.dropWhile isNl).length ≤ n :=
          Nat.le_trans (dropWhile_length_le isNl cs) (Nat.le_of_succ_le_succ hs)
        have hQ : hasTriple (collapseNl (cs.dropWhile isNl)) = false := ih _ hlen
        have hhead : (collapseNl (cs.dropWhile isNl)).head? ≠ some '\n' := by
          rw [collapseNl_head?]
          intro hcontra
          have := head?_dropWhile_ne hcontra
          simp at this
        split
        · simpa using (hasTriple_two_nl_cons hhead).trans hQ
        · rename_i hk
          have hrep := takeWhile_isNl_replicate cs
          rcases hn : (cs.takeWhile isNl).length with _ | m
          · have hrep0 : cs.takeWhile isNl = [] := List.length_eq_zero.mp hn
            rw [hrep0]
            simpa using (hasTriple_nl_cons hhead).trans hQ
          · have hm : m = 0 := by
              rw [hn] at hk
              omega
            subst hm
            rw [hn] at hrep
            rw [hrep]
            simpa [List.replicate_succ] using (hasTriple_two_nl_cons hhead).trans hQ
      · rw [collapseNl_cons_ne c cs hc, hasTriple_cons]
        have hcb : isNl c = false := by simp [isNl, hc]
        rw [hcb]
        simpa using ih cs (Nat.le_of_succ_le_succ hs)

theorem hasTriple_collapseNl (s : Text) : hasTriple (collapseNl s) = false :=
  hasTriple_collapseNl_aux s.length s (Nat.le_refl _)

theorem collapseNl_eq_self_aux :
    ∀ n (s : Text), s.length ≤ n → hasTriple s = false → collapseNl s = s := by
  intro n
  induction n with
  | zero =>
    intro s hs _
    have hnil : s = [] := List.eq_nil_of_length_eq_zero (Nat.le_zero.mp hs)
    subst hnil
    exact collapseNl_nil
  | succ n ih =>
    intro s hs ht
    match s with
    | [] => exact collapseNl_nil
    | c :: cs =>
      rw [hasTriple_cons] at ht
      have ht' : (isNl c && startsTwoNl cs) = false ∧ hasTriple cs = false := by
        constructor
        · cases h1 : (isNl c && startsTwoNl cs) <;> simp_all
        · cases h2 : hasTriple cs <;> simp_all
      by_cases hc : c = '\n'
      · subst hc
        have hst : startsTwoNl cs = false := by
          have := ht'.1
          simpa using this
        have hk : ¬ 2 ≤ (cs.takeWhile isNl).length := by
          intro h2
          have hrep := takeWhile_isNl_replicate cs
          obtain ⟨m, hm⟩ : ∃ m, (cs.takeWhile isNl).length = m + 2 :=
            ⟨(cs.takeWhile isNl).length - 2, by omega⟩
          have hcs : cs = '\n' :: '\n' :: (List.replicate m '\n' ++ cs.dropWhile isNl) := by
            conv_lhs => rw [← List.takeWhile_append_dropWhile (p := isNl) (l := cs)]
            rw [hrep, hm]
            simp [List.replicate_succ]
          rw [hcs] at hst
          simp [startsTwoNl] at hst
        rw [collapseNl_cons_nl, if_neg hk]
        have hrest : collapseNl (cs.dropWhile isNl) = cs.dropWhile isNl := by
          refine ih _ (Nat.le_trans (dropWhile_length_le isNl cs) (Nat.le_of_succ_le_succ hs)) ?_
          refine hasTriple_append_right (a := cs.takeWhile isNl) ?_
          rw [List.takeWhile_append_dropWhile]
          exact ht'.2
        rw [hrest]
        simp only [List.cons_append, List.takeWhile_append_dropWhile]
      · rw [collapseNl_cons_ne c cs hc, ih cs (Nat.le_of_succ_le_succ hs) ht'.2]

theorem collapseNl_eq_self {s : Text} (h : hasTriple s = false) : collapseNl s = s :=
  collapseNl_eq_self_aux s.length s (Nat.le_refl _) h

theorem collapseNl_idem (s : Text) : collapseNl (collapseNl s) = collapseNl s :=
  collapseNl_eq_self (hasTriple_collapseNl s)

theorem mem_of_head?_eq {α : Type} {l : List α} {x : α} (h : l.head? = some x) : x ∈ l := by
  match l with
  | [] => simp at h
  | a :: as =>
    simp at h
    subst h
    exact List.mem_cons_self _ _

theorem splitNl_replicate_nl (m : Nat) (w : Text) :
    splitNl (List.replicate m '\n' ++ w) = List.replicate m [] ++ splitNl w := by
  induction m with
  | zero => simp
  | succ m ih =>
    rw [List.replicate_succ, List.cons_append, splitNl_cons_of_nl, ih,
      List.replicate_succ, List.cons_append]

theorem collapse_lines_aux :
    ∀ n (s : Text), s.length ≤ n →
      (splitNl (collapseNl s)).head? = (splitNl s).head? ∧
      ∀ l ∈ (splitNl (collapseNl s)).tail, l ∈ (splitNl s).tail ∨ l = [] := by
  intro n
  induction n with
  | zero =>
    intro s hs
    have hnil : s = [] := List.eq_nil_of_length_eq_zero (Nat.le_zero.mp hs)
    subst hnil
    rw [collapseNl_nil]
    exact ⟨rfl, by simp [splitNl]⟩
  | succ n ih =>
    intro s hs
    match s with
    | [] => rw [collapseNl_nil]; exact ⟨rfl, by simp [splitNl]⟩
    | c :: cs =>
      by_cases hc : c = '\n'
      · subst hc
        rw [collapseNl_cons_nl]
        set k := (cs.takeWhile isNl).length with hk
        have hrep := takeWhile_isNl_replicate cs
        have hcs : cs = List.replicate k '\n' ++ cs.dropWhile isNl := by
          conv_lhs => rw [← List.takeWhile_append_dropWhile (p := isNl) (l := cs)]
          rw [← hrep]
        have hrest : (cs.dropWhile isNl).length ≤ n :=
          Nat.le_trans (dropWhile_length_le isNl cs) (Nat.le_of_succ_le_succ hs)
        obtain ⟨ihh, iht⟩ := ih (cs.dropWhile isNl) hrest
        have hsplit : splitNl cs = List.replicate k [] ++ splitNl (cs.dropWhile isNl) := by
          conv_lhs => rw [hcs]
          exact splitNl_replicate_nl k _
        have hsub : ∀ l ∈ splitNl (collapseNl (cs.dropWhile isNl)), l ∈ splitNl cs ∨ l = [] := by
          intro l hl
          rcases hsq : splitNl (collapseNl (cs.dropWhile isNl)) with _ | ⟨h1, t1⟩
          · exact absurd hsq (splitNl_ne_nil _)
          · rw [hsq] at hl
            rcases List.mem_cons.mp hl with hl | hl
            · left
              rw [hsplit]
              refine List.mem_append_right _ (mem_of_head?_eq (x := l) ?_)
              rw [← ihh, hsq, hl]
              simp
            · have := iht l (by rw [hsq]; exact hl)
              rcases this with hmem | hmem
              · left
                rw [hsplit]
                exact List.mem_append_right _ (List.mem_of_mem_tail hmem)
              · right; exact hmem
        have hform : ∀ m, 1 ≤ m →
            (splitNl (List.replicate m '\n' ++ collapseNl (cs.dropWhile isNl))).head? =
              (splitNl ('\n' :: cs)).head? ∧
            ∀ l ∈ (splitNl (List.replicate m '\n' ++ collapseNl (cs.dropWhile isNl))).tail,
              l ∈ (splitNl ('\n' :: cs)).tail ∨ l = [] := by
          intro m hm
          rw [splitNl_replicate_nl, splitNl_cons_of_nl]
          obtain ⟨m', rfl⟩ : ∃ m', m = m' + 1 := ⟨m - 1, by omega⟩
          constructor
          · simp [List.replicate_succ]
          · intro l hl
            rw [List.replicate_succ, List.cons_append, List.tail_cons] at hl
            rcases List.mem_append.mp hl with hl | hl
            · right
              exact List.eq_of_mem_replicate hl
            · simpa using hsub l hl
        split
        · have h2 := hform 2 (by omega)
          simpa using h2
        · have h2 := hform (k + 1) (by omega)
          rw [List.replicate_succ] at h2
          have hrw : List.replicate k '\n' = cs.takeWhile isNl := hrep.symm
          rw [hrw] at h2
          simpa using h2
      · rw [collapseNl_cons_ne c cs hc]
        obtain ⟨ihh, iht⟩ := ih cs (Nat.le_of_succ_le_succ hs)
        rcases h1 : splitNl (collapseNl cs) with _ | ⟨a1, t1⟩
        · exact absurd h1 (splitNl_ne_nil _)
        · rcases h2 : splitNl cs with _ | ⟨a2, t2⟩
          · exact absurd h2 (splitNl_ne_nil _)
          · have ha : a1 = a2 := by
              rw [h1, h2] at ihh
              simpa using ihh
            rw [splitNl_cons_of_ne c _ hc, splitNl_cons_of_ne c _ hc, h1, h2]
            constructor
            · simp [ha]
            · intro l hl
              simp only [List.tail_cons] at hl
              have := iht l (by rw [h1]; simpa using hl)
              rcases this with hmem | hmem
              · left
                rw [h2] at hmem
                simpa using hmem
              · right; exact hmem

theorem mem_splitNl_collapseNl {s l : Text} (h : l ∈ splitNl (collapseNl s)) :
    l ∈ splitNl s ∨ l = [] := by
  obtain ⟨ihh, iht⟩ := collapse_lines_aux s.length s (Nat.le_refl _)
  rcases hsq : splitNl (collapseNl s) with _ | ⟨h1, t1⟩
  · exact absurd hsq (splitNl_ne_nil _)
  · rw [hsq] at h
    rcases List.mem_cons.mp h with h | h
    · subst h
      left
      refine mem_of_head?_eq (x := l) ?_
      rw [← ihh, hsq]
      rfl
    · have := iht l (by rw [hsq]; exact h)
      rcases this with hmem | hmem
      · exact Or.inl (List.mem_of_mem_tail hmem)
      · exact Or.inr hmem

theorem mem_joinNl_of_mem {ls : List Text} {l : Text} {c : Char}
    (hl : l ∈ ls) (hc : c ∈ l) : c ∈ joinNl ls := by
  induction ls with
  | nil => simp at hl
  | cons a as ih =>
    rcases as with _ | ⟨a₂, as⟩
    · simp at hl
      subst hl
      exact hc
    · rw [joinNl_cons _ _ (by simp)]
      rcases List.mem_cons.mp hl with hl | hl
      · subst hl
        exact List.mem_append_left _ hc
      · exact List.mem_append_right _ (List.mem_cons_of_mem _ (ih hl))

theorem mem_joinNl {ls : List Text} {c : Char} (h : c ∈ joinNl ls) :
    c = '\n' ∨ ∃ l ∈ ls, c ∈ l := by
  induction ls with
  | nil => simp [joinNl] at h
  | cons a as ih =>
    rcases as with _ | ⟨a₂, as⟩
    · exact Or.inr ⟨a, by simp, h⟩
    · rw [joinNl_cons _ _ (by simp)] at h
      rcases List.mem_append.mp h with h | h
      · exact Or.inr ⟨a, by simp, h⟩
      · rcases List.mem_cons.mp h with h | h
        · exact Or.inl h
        · rcases ih h with h | ⟨l, hl, hcl⟩
          · exact Or.inl h
          · exact Or.inr ⟨l, List.mem_cons_of_mem _ hl, hcl⟩

theorem mem_of_mem_line {s l : Text} {c : Char} (hl : l ∈ splitNl s) (hc : c ∈ l) :
    c ∈ s := by
  have := mem_joinNl_of_mem hl hc
  rwa [joinNl_splitNl] at this

theorem mem_of_mem_collapseNl :
    ∀ n (s : Text), s.length ≤ n → ∀ c, c ∈ collapseNl s → c ∈ s := by
  intro n
  induction n with
  | zero =>
    intro s hs c hc
    have hnil : s = [] := List.eq_nil_of_length_eq_zero (Nat.le_zero.mp hs)
    subst hnil
    rw [collapseNl_nil] at hc
    simp at hc
  | succ n ih =>
    intro s hs c hc
    match s with
    | [] => rw [collapseNl_nil] at hc; simp at hc
    | a :: cs =>
      by_cases ha : a = '\n'
      · subst ha
        rw [collapseNl_cons_nl] at hc
        rcases List.mem_append.mp hc with hc | hc
        · have hcn : c = '\n' := by
            split at hc
            · simp at hc
              exact hc
            · rcases List.mem_cons.mp hc with h | h
              · exact h
              · have := List.mem_takeWhile_imp h
                simpa using this
          subst hcn
          exact List.mem_cons_self _ _
        · have hcmem : c ∈ cs.dropWhile isNl :=
            ih _ (Nat.le_trans (dropWhile_length_le isNl cs) (Nat.le_of_succ_le_succ hs)) c hc
          refine List.mem_cons_of_mem _ ?_
          rw [← List.takeWhile_append_dropWhile (p := isNl) (l := cs)]
          exact List.mem_append_right _ hcmem
      · rw [collapseNl_cons_ne a cs ha] at hc
        rcases List.mem_cons.mp hc with hc | hc
        · subst hc; exact List.mem_cons_self _ _
        · exact List.mem_cons_of_mem _ (ih cs (Nat.le_of_succ_le_succ hs) c hc)

/-- Does the line start with the running-header pattern `RFC <digit>` of the
`^RFC \d+.*$` alternative in `clean_rfc_text`? -/
def startsWithRfcNum : Text → Bool
  | 'R' :: 'F' :: 'C' :: ' ' :: c :: _ => c.isDigit
  | _ => false

/-- Does the text begin with the footer pattern `[Page <digits>]` of the
`\[Page \d+\]` part of the artifact regex? -/
def pageMarkerAt : Text → Bool
  | '[' :: 'P' :: 'a' :: 'g' :: 'e' :: ' ' :: rest =>
    !(rest.takeWhile Char.isDigit).isEmpty &&
      (rest.dropWhile Char.isDigit).head? == some ']'
  | _ => false

/-- Does the line contain `[Page <digits>]` anywhere? -/
def containsPageMarker : Text → Bool
  | [] => false
  | c :: cs => pageMarkerAt (c :: cs) || containsPageMarker cs

/-- A line erased by the artifact regex `(?m)^.*\[Page \d+\].*$|^RFC \d+.*$`. -/
def isArtifactLine (l : Text) : Bool := containsPageMarker l || startsWithRfcNum l

/-- Per-line effect of `Regex.replace_all` with the empty string: a matching
line keeps its newline but loses its content. -/
def scrubLine (l : Text) : Text := if isArtifactLine l then [] else l

/-- The artifact-removal pass of `clean_rfc_text`. -/
def removeArtifactLines (s : Text) : Text :=
  joinNl ((splitNl s).map scrubLine)

/-- The `raw_text.replace('\x0C', "")` pass of `clean_rfc_text`. -/
def removeFF (s : Text) : Text := s.filter (fun c => !(c == '\x0C'))

/-- Function `clean_rfc_text` from src/main.rs: remove form feeds, erase header/footer
artifact lines, collapse newline runs of three or more to exactly two. -/
def clean_rfc_text (s : Text) : Text :=
  collapseNl (removeArtifactLines (removeFF s))

theorem scrubLine_no_artifact (l : Text) : isArtifactLine (scrubLine l) = false := by
  unfold scrubLine
  split
  · decide
  · rename_i h
    simpa using h

theorem splitNl_removeArtifactLines (s : Text) :
    splitNl (removeArtifactLines s) = (splitNl s).map scrubLine := by
  apply splitNl_joinNl
  · intro h
    exact splitNl_ne_nil s (List.map_eq_nil_iff.mp h)
  · intro l hl
    rcases List.mem_map.mp hl with ⟨l₀, hl₀, rfl⟩
    unfold scrubLine
    split
    · simp
    · exact no_nl_of_mem_splitNl hl₀

theorem artifact_free_removeArtifactLines (s : Text) :
    ∀ l ∈ splitNl (removeArtifactLines s), isArtifactLine l = false := by
  intro l hl
  rw [splitNl_removeArtifactLines] at hl
  rcases List.mem_map.mp hl with ⟨l₀, _, rfl⟩
  exact scrubLine_no_artifact l₀

theorem removeArtifactLines_eq_self {s : Text}
    (h : ∀ l ∈ splitNl s, isArtifactLine l = false) : removeArtifactLines s = s := by
  unfold removeArtifactLines
  have hmap : (splitNl s).map scrubLine = (splitNl s).map id :=
    List.map_congr_left fun l hl => by simp [scrubLine, h l hl]
  rw [hmap, List.map_id, joinNl_splitNl]

theorem removeFF_no_ff (s : Text) : '\x0C' ∉ removeFF s := by
  intro h
  have := List.mem_filter.mp h
  simp at this

theorem removeFF_eq_self {s : Text} (h : '\x0C' ∉ s) : removeFF s = s :=
  List.filter_eq_self.mpr fun a ha => by
    simp only [Bool.not_eq_true', beq_eq_false_iff_ne, ne_eq]
    intro heq
    exact h (heq ▸ ha)

theorem no_ff_removeArtifactLines {s : Text} (h : '\x0C' ∉ s) :
    '\x0C' ∉ removeArtifactLines s := by
  intro hc
  rcases mem_joinNl hc with hc | ⟨l, hl, hcl⟩
  · simp at hc
  · rcases List.mem_map.mp hl with ⟨l₀, hl₀, rfl⟩
    have hmem : '\x0C' ∈ l₀ := by
      unfold scrubLine at hcl
      split at hcl
      · simp at hcl
      · exact hcl
    exact h (mem_of_mem_line hl₀ hmem)

theorem no_ff_collapseNl {s : Text} (h : '\x0C' ∉ s) : '\x0C' ∉ collapseNl s :=
  fun hc => h (mem_of_mem_collapseNl s.length s (Nat.le_refl _) _ hc)

theorem no_ff_clean (s : Text) : '\x0C' ∉ clean_rfc_text s :=
  no_ff_collapseNl (no_ff_removeArtifactLines (removeFF_no_ff s))

theorem artifact_free_clean (s : Text) :
    ∀ l ∈ splitNl (clean_rfc_text s), isArtifactLine l = false := by
  intro l hl
  unfold clean_rfc_text at hl
  rcases mem_splitNl_collapseNl hl with hl | rfl
  · exact artifact_free_removeArtifactLines _ l hl
  · decide

/-- Claim C2: text normalization is idempotent — applying `clean_rfc_text`
(form-feed removal, artifact-line removal, newline-run collapsing) twice
gives the same result as applying it once, for every input text. -/
theorem c2_normalize_idempotent (s : Text) :
    clean_rfc_text (clean_rfc_text s) = clean_rfc_text s := by
  have h1 : removeFF (clean_rfc_text s) = clean_rfc_text s :=
    removeFF_eq_self (no_ff_clean s)
  have h2 : removeArtifactLines (clean_rfc_text s) = clean_rfc_text s :=
    removeArtifactLines_eq_self (artifact_free_clean s)
  have h3 : collapseNl (clean_rfc_text s) = clean_rfc_text s := by
    unfold clean_rfc_text
    exact collapseNl_idem _
  show collapseNl (removeArtifactLines (removeFF (clean_rfc_text s))) = clean_rfc_text s
  rw [h1, h2, h3]

theorem getLast?_cons_ne_nil {c : Char} {cs : Text} (h : cs ≠ []) :
    (c :: cs).getLast? = cs.getLast? := by
  rcases cs with _ | ⟨d, ds⟩
  · exact absurd rfl h
  · simp

theorem takeWhile_append_of_mem_false {p : Char → Bool} {a : Text} (b : Text)
    (h : ∃ x ∈ a, p x = false) :
    (a ++ b).takeWhile p = a.takeWhile p ∧
    (a ++ b).dropWhile p = a.dropWhile p ++ b ∧ a.dropWhile p ≠ [] := by
  induction a with
  | nil => simp at h
  | cons c cs ih =>
    by_cases hc : p c
    · obtain ⟨x, hx, hpx⟩ := h
      rcases List.mem_cons.mp hx with rfl | hx
      · rw [hc] at hpx; simp at hpx
      · obtain ⟨h1, h2, h3⟩ := ih ⟨x, hx, hpx⟩
        refine ⟨?_, ?_, ?_⟩
        · rw [List.cons_append, List.takeWhile_cons_of_pos hc,
            List.takeWhile_cons_of_pos hc, h1]
        · rw [List.cons_append, List.dropWhile_cons_of_pos hc,
            List.dropWhile_cons_of_pos hc, h2]
        · rw [List.dropWhile_cons_of_pos hc]; exact h3
    · refine ⟨?_, ?_, ?_⟩ <;>
        simp [List.cons_append, List.takeWhile_cons_of_neg hc,
          List.dropWhile_cons_of_neg hc]

theorem getLast?_append_ne_nil {a y : Text} (h : y ≠ []) :
    (a ++ y).getLast? = y.getLast? := by
  induction a with
  | nil => rfl
  | cons c cs ih =>
    rw [List.cons_append, getLast?_cons_ne_nil (fun hh => h (List.append_eq_nil.mp hh).2), ih]

theorem collapseNl_append_aux :
    ∀ n (a b : Text), a.length ≤ n → a.getLast? ≠ some '\n' →
      collapseNl (a ++ b) = collapseNl a ++ collapseNl b := by
  intro n
  induction n with
  | zero =>
    intro a b ha _
    have hnil : a = [] := List.eq_nil_of_length_eq_zero (Nat.le_zero.mp ha)
    subst hnil
    simp [collapseNl_nil]
  | succ n ih =>
    intro a b ha hlast
    match a with
    | [] => simp [collapseNl_nil]
    | c :: cs =>
      by_cases hc : c = '\n'
      · subst hc
        have hcs_ne : cs ≠ [] := by
          intro h; subst h; simp at hlast
        have hlast_cs : cs.getLast? ≠ some '\n' := by
          rwa [getLast?_cons_ne_nil hcs_ne] at hlast
        have hex : ∃ x ∈ cs, isNl x = false := by
          have hgl : cs.getLast? = some (cs.getLast hcs_ne) :=
            List.getLast?_eq_getLast cs hcs_ne
          refine ⟨cs.getLast hcs_ne, List.getLast_mem hcs_ne, ?_⟩
          cases h : isNl (cs.getLast hcs_ne)
          · rfl
          · exfalso
            apply hlast_cs
            rw [hgl]
            simp at h
            rw [h]
        obtain ⟨h1, h2, h3⟩ := takeWhile_append_of_mem_false b hex
        rw [List.cons_append, collapseNl_cons_nl, collapseNl_cons_nl, h1, h2]
        have hlast_dw : (cs.dropWhile isNl).getLast? ≠ some '\n' := by
          have hdecomp : cs = cs.takeWhile isNl ++ cs.dropWhile isNl :=
            (List.takeWhile_append_dropWhile (p := isNl) (l := cs)).symm
          rw [hdecomp, getLast?_append_ne_nil h3] at hlast_cs
          exact hlast_cs
        have hrec := ih (cs.dropWhile isNl) b
          (Nat.le_trans (dropWhile_length_le isNl cs) (Nat.le_of_succ_le_succ ha)) hlast_dw
        rw [hrec, List.append_assoc]
      · rcases hcs : cs with _ | ⟨d, ds⟩
        · rw [List.cons_append, collapseNl_cons_ne c _ hc, collapseNl_cons_ne c [] hc,
            collapseNl_nil, List.nil_append]
          simp
        · rw [← hcs]
          have hcs_ne : cs ≠ [] := by rw [hcs]; simp
          have hlast_cs : cs.getLast? ≠ some '\n' := by
            rwa [getLast?_cons_ne_nil hcs_ne] at hlast
          rw [List.cons_append, collapseNl_cons_ne c _ hc, collapseNl_cons_ne c cs hc,
            ih cs b (Nat.le_of_succ_le_succ ha) hlast_cs, List.cons_append]

theorem collapseNl_append {a b : Text} (h : a.getLast? ≠ some '\n') :
    collapseNl (a ++ b) = collapseNl a ++ collapseNl b :=
  collapseNl_append_aux a.length a b (Nat.le_refl _) h

theorem replicate_nl_append_split {b : Text} (hb : b.head? ≠ some '\n') (k : Nat) :
    (List.replicate k '\n' ++ b).takeWhile isNl = List.replicate k '\n' ∧
    (List.replicate k '\n' ++ b).dropWhile isNl = b := by
  induction k with
  | zero =>
    rcases b with _ | ⟨x, xs⟩
    · simp
    · have hx : isNl x = false := by
        simp at hb
        simp [isNl, hb]
      simp [List.takeWhile_cons, List.dropWhile_cons, hx]
  | succ k ih =>
    rw [List.replicate_succ, List.cons_append,
      List.takeWhile_cons_of_pos (by simp), List.dropWhile_cons_of_pos (by simp),
      ih.1, ih.2]
    exact ⟨rfl, rfl⟩

theorem collapseNl_replicate_nl {b : Text} (hb : b.head? ≠ some '\n') (k : Nat) :
    collapseNl (List.replicate k '\n' ++ b) =
      List.replicate (if 3 ≤ k then 2 else k) '\n' ++ collapseNl b := by
  rcases k with _ | k'
  · simp
  · rw [List.replicate_succ, List.cons_append, collapseNl_cons_nl,
      (replicate_nl_append_split hb k').1, (replicate_nl_append_split hb k').2]
    by_cases h2 : 2 ≤ k'
    · rw [if_pos (by simpa using h2), if_pos (by omega)]
      rfl
    · rw [if_neg (by simpa using h2), if_neg (by omega), List.replicate_succ]

theorem clean_eq_collapseNl {s : Text} (hff : '\x0C' ∉ s)
    (hart : ∀ l ∈ splitNl s, isArtifactLine l = false) :
    clean_rfc_text s = collapseNl s := by
  unfold clean_rfc_text
  rw [removeFF_eq_self hff, removeArtifactLines_eq_self hart]

/-- Claim C8: the final normalization step collapses every run of three or
more newlines to exactly two and never collapses shorter runs: (1) the
normalized output has no run of three consecutive newlines; (2) on input free
of form feeds and artifact lines, a maximal newline run of length `k` between
two non-newline-bordered pieces maps to `min` semantics — two newlines when
`3 ≤ k`, otherwise `k` unchanged; (3) such input with no run of three or more
newlines is returned verbatim. -/
theorem c8_collapse_runs :
    (∀ s : Text, hasTriple (clean_rfc_text s) = false) ∧
    (∀ (a b : Text) (k : Nat),
      a.getLast? ≠ some '\n' → b.head? ≠ some '\n' →
      '\x0C' ∉ a ++ List.replicate k '\n' ++ b →
      (∀ l ∈ splitNl (a ++ List.replicate k '\n' ++ b), isArtifactLine l = false) →
      clean_rfc_text (a ++ List.replicate k '\n' ++ b) =
        collapseNl a ++ List.replicate (if 3 ≤ k then 2 else k) '\n' ++ collapseNl b) ∧
    (∀ s : Text, hasTriple s = false → '\x0C' ∉ s →
      (∀ l ∈ splitNl s, isArtifactLine l = false) → clean_rfc_text s = s) := by
  refine ⟨?_, ?_, ?_⟩
  · intro s
    unfold clean_rfc_text
    exact hasTriple_collapseNl _
  · intro a b k ha hb hff hart
    rw [clean_eq_collapseNl hff hart, List.append_assoc, collapseNl_append ha,
      collapseNl_replicate_nl hb k, List.append_assoc]
  · intro s htr hff hart
    rw [clean_eq_collapseNl hff hart, collapseNl_eq_self htr]

/-- Witness for C8 at concrete inputs: `"a" ++ "\n"*5 ++ "b"` normalizes to
`"a\n\nb"`, and `"a\n\nb"` is left unchanged. -/
theorem c8_collapse_runs_witness :
    (clean_rfc_text (['a'] ++ List.replicate 5 '\n' ++ ['b']) =
      collapseNl ['a'] ++ List.replicate (if 3 ≤ 5 then 2 else 5) '\n' ++ collapseNl ['b']) ∧
    clean_rfc_text ('a' :: '\n' :: '\n' :: ['b']) = 'a' :: '\n' :: '\n' :: ['b'] :=
  ⟨c8_collapse_runs.2.1 ['a'] ['b'] 5 (by decide) (by decide) (by decide) (by decide),
   c8_collapse_runs.2.2 ('a' :: '\n' :: '\n' :: ['b']) (by decide) (by decide) (by decide)⟩

/-- Claim C10: artifact-line removal erases the content of every line that
begins with `RFC ` followed by a digit and of every line containing
`[Page <digits>]`, regardless of whether it is a real header or footer — no
such line survives in normalized output, and a body-text line starting with
`RFC 791` is erased just like a running header. -/
theorem c10_artifact_erasure :
    (∀ s : Text, ∀ l ∈ splitNl (clean_rfc_text s),
      startsWithRfcNum l = false ∧ containsPageMarker l = false) ∧
    clean_rfc_text (("Intro\nRFC 791 is great\nEnd").data) = ("Intro\n\nEnd").data ∧
    clean_rfc_text (("Intro\nSee [Page 3] note\nEnd").data) = ("Intro\n\nEnd").data := by
  refine ⟨?_, by decide, by decide⟩
  intro s l hl
  have hfree := artifact_free_clean s l hl
  unfold isArtifactLine at hfree
  constructor
  · cases h : startsWithRfcNum l <;> simp_all
  · cases h : containsPageMarker l <;> simp_all

/-- Witness for C10: the body line `RFC 1 x` is erased entirely, so the empty
line in the output carries no artifact pattern. -/
theorem c10_artifact_erasure_witness :
    startsWithRfcNum ([] : Text) = false ∧ containsPageMarker ([] : Text) = false :=
  c10_artifact_erasure.1 (("RFC 1 x").data) [] (by decide)

/-- ASCII fragment of Rust `char::is_whitespace`, as used by `trim` and
`split_whitespace` in `fuzzy_select_rfc`. -/
def isWs (c : Char) : Bool :=
  c == ' ' || c == '\t' || c == '\n' || c == '\r' || c == '\x0B' || c == '\x0C'

/-- Rust `item.output().split_whitespace().next()`: the first whitespace-delimited
token of the selected line, if any. -/
def firstToken (l : Text) : Option Text :=
  let t := (l.dropWhile isWs).takeWhile (fun c => !(isWs c))
  if t.isEmpty then none else some t

def u32Max : Nat := 4294967295

def digitVal (c : Char) : Nat := c.toNat - ('0').toNat

/-- Digit-accumulation loop of Rust `u32::from_str`, with the per-step
overflow check against `u32::MAX`. -/
def parseDigitsAux : Nat → Text → Option Nat
  | acc, [] => some acc
  | acc, c :: cs =>
    if c.isDigit then
      if acc * 10 + digitVal c ≤ u32Max then parseDigitsAux (acc * 10 + digitVal c) cs
      else none
    else none

/-- Rust `str::parse::<u32>()`: optional leading `+`, then one or more ASCII
digits, value within `u32` range. -/
def parseU32 : Text → Option Nat
  | [] => none
  | c :: rest =>
    if c = '+' then (if rest.isEmpty then none else parseDigitsAux 0 rest)
    else parseDigitsAux 0 (c :: rest)

/-- Rust `out.selected_items.first().and_then(|item| ... parse::<u32>().ok())` in
`fuzzy_select_rfc`: parse the leading token of the selected line as `u32`. -/
def parse_selected_line (l : Text) : Option Nat :=
  (firstToken l).bind parseU32

theorem parseDigitsAux_le :
    ∀ (cs : Text) (acc n : Nat), acc ≤ u32Max →
      parseDigitsAux acc cs = some n → n ≤ u32Max := by
  intro cs
  induction cs with
  | nil =>
    intro acc n ha h
    unfold parseDigitsAux at h
    simp at h
    omega
  | cons c cs ih =>
    intro acc n ha h
    unfold parseDigitsAux at h
    split at h
    · split at h
      · rename_i hle
        exact ih _ n hle h
      · simp at h
    · simp at h

theorem parseU32_le {t : Text} {n : Nat} (h : parseU32 t = some n) : n ≤ u32Max := by
  rcases t with _ | ⟨c, rest⟩
  · simp [parseU32] at h
  · by_cases hc : c = '+'
    · subst hc
      rcases rest with _ | ⟨d, ds⟩
      · simp [parseU32] at h
      · have h' : parseDigitsAux 0 (d :: ds) = some n := by
          simpa [parseU32] using h
        exact parseDigitsAux_le _ 0 n (Nat.zero_le _) h'
    · have h' : parseDigitsAux 0 (c :: rest) = some n := by
        simpa [parseU32, hc] using h
      exact parseDigitsAux_le _ 0 n (Nat.zero_le _) h'

/-- Counterexample to claim C6 as stated: the token `0` is not a positive
integer, yet for the selected line `0 Experimental` the selector parse yields
the chosen number 0 — Rust `u32` parsing accepts zero. -/
theorem c6_counterexample :
    parse_selected_line (("0 Experimental").data) = some 0 := by decide

/-- Claim C6 amended: the selector parses the leading whitespace-delimited
token of the selected line as an unsigned 32-bit integer; when there is no
token or the token fails `u32` parsing (non-numeric, out of range) the outcome
is no selection (`none`) rather than a crash or a propagated error, and any
chosen number is at most `u32::MAX`; a token that is a valid `u32` — including
`0` — yields that number. -/
theorem c6_parse_degrade :
    (∀ l : Text, firstToken l = none → parse_selected_line l = none) ∧
    (∀ l t : Text, firstToken l = some t → parseU32 t = none →
      parse_selected_line l = none) ∧
    (∀ (l : Text) (n : Nat), parse_selected_line l = some n →
      n ≤ u32Max ∧ ∃ t, firstToken l = some t ∧ parseU32 t = some n) := by
  refine ⟨?_, ?_, ?_⟩
  · intro l h
    simp [parse_selected_line, h]
  · intro l t h1 h2
    simp [parse_selected_line, h1, h2]
  · intro l n h
    unfold parse_selected_line at h
    rcases hft : firstToken l with _ | t
    · rw [hft] at h; simp at h
    · rw [hft] at h
      simp at h
      exact ⟨parseU32_le h, t, rfl, h⟩

/-- Witness for C6 (amended): a non-numeric token degrades to no selection,
and a numeric line yields a number within `u32` range. -/
theorem c6_parse_degrade_witness :
    parse_selected_line (("not-a-number line").data) = none ∧
    (42 ≤ u32Max ∧ ∃ t, firstToken (("42 The Answer").data) = some t ∧
      parseU32 t = some 42) :=
  ⟨c6_parse_degrade.2.1 (("not-a-number line").data) (("not-a-number").data)
      (by decide) (by decide),
   c6_parse_degrade.2.2 (("42 The Answer").data) 42 (by decide)⟩

/-- Rust `str::trim` (ASCII whitespace fragment). -/
def trimChars (l : Text) : Text :=
  ((l.dropWhile isWs).reverse.dropWhile isWs).reverse

/-- The candidate filter of `fuzzy_select_rfc`:
`line.trim().chars().next().map(|c| c.is_ascii_digit()).unwrap_or(false)`. -/
def candidate_keep (l : Text) : Bool :=
  ((trimChars l).head?.map Char.isDigit).getD false

/-- Rust `str::lines`: split on `\n`, drop a final empty segment, strip one
trailing `\r` from each line. -/
def stripCR (l : Text) : Text :=
  if l.getLast? = some '\r' then l.dropLast else l

def rustLines (s : Text) : List Text :=
  if s.isEmpty then []
  else
    (if (splitNl s).getLast? = some [] then (splitNl s).dropLast
     else splitNl s).map stripCR

/-- The filtered index handed to skim by `fuzzy_select_rfc`: only lines kept
by `candidate_keep`. -/
def candidate_lines (idx : Text) : List Text :=
  (rustLines idx).filter candidate_keep

theorem dropWhile_append_singleton {p : Char → Bool} {c : Char} (xs : Text)
    (hc : p c = false) : (xs ++ [c]).dropWhile p = xs.dropWhile p ++ [c] := by
  induction xs with
  | nil => simp [List.dropWhile_cons, hc]
  | cons x xs ih =>
    by_cases hx : p x
    · rw [List.cons_append, List.dropWhile_cons_of_pos hx, List.dropWhile_cons_of_pos hx, ih]
    · rw [List.cons_append, List.dropWhile_cons_of_neg hx, List.dropWhile_cons_of_neg hx,
        List.cons_append]

theorem trimChars_head? (l : Text) : (trimChars l).head? = (l.dropWhile isWs).head? := by
  unfold trimChars
  rcases hd : l.dropWhile isWs with _ | ⟨c, r⟩
  · simp
  · have hc : isWs c = false := head?_dropWhile_ne (l := l) (by rw [hd]; rfl)
    rw [List.reverse_cons, dropWhile_append_singleton _ hc, List.reverse_append]
    simp

theorem candidate_keep_iff (l : Text) :
    candidate_keep l = true ↔
      ∃ c r, l.dropWhile isWs = c :: r ∧ c.isDigit = true := by
  unfold candidate_keep
  rw [trimChars_head?]
  rcases hd : l.dropWhile isWs with _ | ⟨c, r⟩
  · simp
  · simp

/-- Claim C7: selector candidate filtering keeps exactly the index lines whose
first non-whitespace character is an ASCII digit; blank, whitespace-only and
non-digit-leading lines are excluded, as on the four-line example of the
specification. -/
theorem c7_candidate_filter :
    candidate_lines (("Title header\n  \n1234 Some RFC Title\nnot-a-number line").data) =
      [("1234 Some RFC Title").data] ∧
    ∀ s l : Text,
      l ∈ candidate_lines s ↔
        l ∈ rustLines s ∧ ∃ c r, l.dropWhile isWs = c :: r ∧ c.isDigit = true := by
  constructor
  · decide
  · intro s l
    unfold candidate_lines
    rw [List.mem_filter, candidate_keep_iff]

/-- The document cache state: contents stored per RFC number (`rfc<n>.txt`
files under the cache directory). -/
def DocCache : Type := Nat → Option Text

/-- The network as seen by `fetch_rfc`: for each RFC number, either the body
text of `https://www.rfc-editor.org/rfc/rfc<n>.txt` or a failure. -/
def Network : Type := Nat → Option Text

/-- Function `fetch_rfc` from src/main.rs: return the cached entry if present without
touching the network; otherwise download, write through to the cache, and
return the downloaded content; a download failure is an error that leaves the
cache unchanged.  Result: the returned text (or error) and the new cache. -/
def fetch_rfc (net : Network) (cache : DocCache) (n : Nat) : Option Text × DocCache :=
  match cache n with
  | some t => (some t, cache)
  | none =>
    match net n with
    | some content => (some content, fun m => if m = n then some content else cache m)
    | none => (none, cache)

/-- The never-available network: models the second call of the C4 scenario. -/
def noNetwork : Network := fun _ => none

/-- Claim C4: the document cache is read-through — a cache hit is returned
directly and identically for any two network states (no network contact), and
after a first fetch that had to download, a second fetch with the network gone
returns the same text. -/
theorem c4_read_through :
    (∀ (net net₂ : Network) (cache : DocCache) (n : Nat) (t : Text),
      cache n = some t →
      fetch_rfc net cache n = (some t, cache) ∧
      fetch_rfc net cache n = fetch_rfc net₂ cache n) ∧
    (∀ (net : Network) (cache : DocCache) (n : Nat) (t : Text),
      cache n = none → net n = some t →
      (fetch_rfc net cache n).1 = some t ∧
      (fetch_rfc noNetwork (fetch_rfc net cache n).2 n).1 = some t) := by
  constructor
  · intro net net₂ cache n t h
    unfold fetch_rfc
    rw [h]
    exact ⟨rfl, rfl⟩
  · intro net cache n t hc hn
    unfold fetch_rfc
    rw [hc, hn]
    simp

/-- Witness for C4 at a concrete cache and network. -/
theorem c4_read_through_witness :
    (fetch_rfc (fun _ => some (("net text").data)) (fun _ => some (("cached").data)) 7 =
      (some (("cached").data), fun _ => some (("cached").data))) ∧
    (fetch_rfc noNetwork
        (fetch_rfc (fun _ => some (("doc 9").data)) (fun _ => none) 9).2 9).1 =
      some (("doc 9").data) :=
  ⟨(c4_read_through.1 (fun _ => some (("net text").data)) noNetwork
      (fun _ => some (("cached").data)) 7 (("cached").data) rfl).1,
   (c4_read_through.2 (fun _ => some (("doc 9").data)) (fun _ => none) 9 (("doc 9").data)
      rfl rfl).2⟩

/-- The index-refresh step of `fuzzy_select_rfc`: `file` is the on-disk
`rfc-index.txt` (none when absent), `dl` the downloaded index body (none when
the request or body read fails), `force` the `-r` flag.  When the file is
absent or `force` is set, the index is downloaded and the file overwritten
only on success; a failure returns no index and leaves the file untouched.
Result: the index text used for selection (or none) and the new file state. -/
def load_index (file : Option Text) (dl : Option Text) (force : Bool) :
    Option Text × Option Text :=
  match file, force with
  | some t, false => (some t, some t)
  | _, _ =>
    match dl with
    | none => (none, file)
    | some content => (some content, some content)

/-- Claim C5: index refresh is all-or-nothing — on a forced refresh whose
download (or body read) fails, the selection attempt gets no index and the
pre-existing index file is left byte-for-byte unchanged; the file is written
only once the full new index text has been obtained. -/
theorem c5_refresh_all_or_nothing :
    (∀ file : Option Text,
      load_index file none true = (none, file)) ∧
    (∀ (file : Option Text) (content : Text),
      load_index file (some content) true = (some content, some content)) := by
  constructor
  · intro file
    rcases file with _ | t <;> rfl
  · intro file content
    rcases file with _ | t <;> rfl

/-- Outcome of `Skim::run_with` as observed by `fuzzy_select_rfc`. -/
inductive SkimOutcome where
  | noOutput : SkimOutcome
  | aborted : SkimOutcome
  | accepted : Option Text → SkimOutcome

/-- Environment of one `fuzzy_select_rfc` invocation: cache-directory
availability, the on-disk index file, the index download result, and the skim
interaction outcome. -/
structure SelEnv where
  dirOk : Bool
  indexFile : Option Text
  download : Option Text
  skim : SkimOutcome

/-- Function `fuzzy_select_rfc` from src/main.rs as a function of its environment:
directory failure, refresh failure, a skim abort (esc / ctrl-c), no skim
output, an empty selection, and a selected line whose leading token fails
`u32` parsing all yield `none`; a parsed selection yields its number.  The
second component is the index file state after the call. -/
def fuzzy_select_rfc (env : SelEnv) (force : Bool) : Option Nat × Option Text :=
  if !env.dirOk then (none, env.indexFile)
  else
    match load_index env.indexFile env.download force with
    | (none, f) => (none, f)
    | (some _idx, f) =>
      match env.skim with
      | .noOutput => (none, f)
      | .aborted => (none, f)
      | .accepted sel => (sel.bind parse_selected_line, f)

/-- State of the `read` session loop: selecting (current force-refresh flag
and pending one-shot initial query) or exited. -/
inductive LoopState where
  | selecting : Bool → Option Text → LoopState
  | exited : LoopState
deriving DecidableEq

/-- One iteration of the `read` loop in `main`: invoke the selector; on a
chosen number, fetch the document — a success is paged, a failure is reported
with a pause — and in both cases return to selecting with the refresh flag
cleared and the query consumed; when no number was chosen, break out of the
loop. -/
def read_loop_step (env : SelEnv) (fetched : Option Text) : LoopState → LoopState
  | .exited => .exited
  | .selecting firstRun _q =>
    match (fuzzy_select_rfc env firstRun).1 with
    | some _n =>
      match fetched with
      | some _content => .selecting false none
      | none => .selecting false none
    | none => .exited

/-- Counterexample to claim C1 as stated: the loop exits on outcomes other
than explicit cancellation — a forced refresh whose download fails exits the
loop although an index file exists, and a selected line whose leading token
fails to parse also exits the loop. -/
theorem c1_counterexample :
    read_loop_step
      { dirOk := true, indexFile := some (("791 Internet Protocol").data),
        download := none, skim := .accepted (some (("791 Internet Protocol").data)) }
      (some (("text").data)) (.selecting true none) = .exited ∧
    read_loop_step
      { dirOk := true, indexFile := some (("791 Internet Protocol").data),
        download := some (("791 Internet Protocol").data),
        skim := .accepted (some (("not-a-number line").data)) }
      (some (("text").data)) (.selecting false none) = .exited := by
  constructor <;> decide

/-- Claim C1 amended: the read loop exits exactly when the selector yields no
number — explicit cancellation, selection/refresh errors and parse-degraded
selections all exit the loop; only after a chosen number does the loop
continue, returning to selecting with the refresh flag cleared and the query
consumed, whether the document fetch succeeded or failed. -/
theorem c1_loop_exit (env : SelEnv) (fetched : Option Text) (b : Bool) (q : Option Text) :
    ((fuzzy_select_rfc env b).1 = none →
      read_loop_step env fetched (.selecting b q) = .exited) ∧
    (∀ n, (fuzzy_select_rfc env b).1 = some n →
      read_loop_step env fetched (.selecting b q) = .selecting false none) := by
  constructor
  · intro h
    simp only [read_loop_step]
    rw [h]
  · intro n h
    simp only [read_loop_step]
    rw [h]
    rcases fetched with _ | t <;> rfl

/-- Witness for C1 (amended): an abort exits; a parsed selection returns to
selecting with the flags cleared, both for a successful and a failed fetch. -/
theorem c1_loop_exit_witness :
    read_loop_step
      { dirOk := true, indexFile := some (("791 Internet Protocol").data),
        download := none, skim := .aborted } none (.selecting false none) = .exited ∧
    read_loop_step
      { dirOk := true, indexFile := some (("791 Internet Protocol").data),
        download := none, skim := .accepted (some (("791 Internet Protocol").data)) }
      none (.selecting false none) = .selecting false none :=
  ⟨(c1_loop_exit _ none false none).1 (by decide),
   (c1_loop_exit _ none false none).2 791 (by decide)⟩

def natChars (n : Nat) : Text := (Nat.repr n).data

/-- Rust `cleaned_text.lines().take(300).collect::<Vec<_>>().join("\n")` of
`generate_tldr`: the context sent to the backend is the first 300 lines of
the normalized document, nothing else. -/
def tldr_context (text : Text) : Text :=
  joinNl ((rustLines (clean_rfc_text text)).take 300)

/-- The user message of the request in `generate_tldr`, built by
`format!` from the RFC number and the 300-line context. -/
def tldr_user_prompt (number : Nat) (text : Text) : Text :=
  ("Summarize RFC ").data ++ natChars number ++ (":\n\n").data ++ tldr_context text

def apos : Char := Char.ofNat 39

/-- The system message of the chat-completions request in `generate_tldr`. -/
def tldr_system_msg : Text :=
  ("You are a Senior Systems Engineer. Summarize the RFC for a terminal UI. DO NOT use Markdown bolding (no asterisks). Use a simple ").data ++
    [apos] ++ ("TITLE: description").data ++ [apos] ++
    (" format for bullets. Keep the elevator pitch at the top.").data

/-- The JSON body fields of the chat-completions request in `generate_tldr`. -/
structure TldrRequest where
  model : Text
  systemMsg : Text
  userMsg : Text
deriving DecidableEq

/-- Request construction in `generate_tldr`: the function receives the CLI
`--model` argument (as in the source) but the model field of the request is the
hard-coded literal. -/
def mkTldrRequest (number : Nat) (text modelArg : Text) : TldrRequest :=
  { model := ("llama-3.1-8b-instant").data
    systemMsg := tldr_system_msg
    userMsg := tldr_user_prompt number text }

/-- Claim C9: the model identifier sent to the summarization backend is
independent of the `--model` option — for any two option values the request
is identical, and its model field is always the constant
`llama-3.1-8b-instant`. -/
theorem c9_model_constant (n : Nat) (text m₁ m₂ : Text) :
    mkTldrRequest n text m₁ = mkTldrRequest n text m₂ ∧
    (mkTldrRequest n text m₁).model = ("llama-3.1-8b-instant").data :=
  ⟨rfl, rfl⟩

/-- Does `pat` occur at the start of `s`? -/
def leadsWith : Text → Text → Bool
  | [], _ => true
  | _ :: _, [] => false
  | c :: p, d :: s => c == d && leadsWith p s

/-- Does `pat` occur anywhere in `s`? -/
def containsSub (pat : Text) : Text → Bool
  | [] => pat.isEmpty
  | c :: cs => leadsWith pat (c :: cs) || containsSub pat cs

theorem mem_of_mem_dropLast {α : Type} {l : List α} {x : α}
    (h : x ∈ l.dropLast) : x ∈ l := by
  rw [List.dropLast_eq_take] at h
  exact List.take_subset _ _ h

theorem mem_rustLines {s l : Text} (h : l ∈ rustLines s) :
    ∃ l₀ ∈ splitNl s, l = stripCR l₀ := by
  unfold rustLines at h
  split at h
  · simp at h
  · rcases List.mem_map.mp h with ⟨l₀, hl₀, rfl⟩
    refine ⟨l₀, ?_, rfl⟩
    split at hl₀
    · exact mem_of_mem_dropLast hl₀
    · exact hl₀

theorem no_nl_stripCR {l : Text} (h : '\n' ∉ l) : '\n' ∉ stripCR l := by
  unfold stripCR
  split
  · intro hmem
    exact h (mem_of_mem_dropLast hmem)
  · exact h

theorem no_nl_of_mem_rustLines {s l : Text} (h : l ∈ rustLines s) : '\n' ∉ l := by
  rcases mem_rustLines h with ⟨l₀, hl₀, rfl⟩
  exact no_nl_stripCR (no_nl_of_mem_splitNl hl₀)

theorem joinNl_take_append (ls : List Text) : ∀ k : Nat,
    ∃ rest, joinNl ls = joinNl (ls.take k) ++ rest := by
  induction ls with
  | nil => intro k; exact ⟨[], by simp⟩
  | cons l ls ih =>
    intro k
    rcases k with _ | k'
    · exact ⟨joinNl (l :: ls), by simp [joinNl]⟩
    · rcases ls with _ | ⟨l₂, ls⟩
      · exact ⟨[], by simp⟩
      · rcases hk : (l₂ :: ls).take k' with _ | ⟨d, ds⟩
        · refine ⟨'\n' :: joinNl (l₂ :: ls), ?_⟩
          rw [List.take_succ_cons, hk, joinNl_cons _ _ (by simp)]
          simp [joinNl]
        · obtain ⟨rest, hrest⟩ := ih k'
          refine ⟨rest, ?_⟩
          have h1 : joinNl (l :: l₂ :: ls) = l ++ '\n' :: joinNl (l₂ :: ls) :=
            joinNl_cons _ _ (by simp)
          have h2 : joinNl ((l :: l₂ :: ls).take (k' + 1)) =
              l ++ '\n' :: joinNl ((l₂ :: ls).take k') := by
            rw [List.take_succ_cons]
            exact joinNl_cons _ _ (by rw [hk]; simp)
          rw [h1, h2, hrest]
          simp

theorem mem_of_getLast?_eq {α : Type} {l : List α} {x : α}
    (h : l.getLast? = some x) : x ∈ l := by
  rw [List.getLast?_eq_head?_reverse] at h
  exact List.mem_reverse.mp (mem_of_head?_eq h)

/-- A normalized document whose `Security Considerations` section begins after
line 300: 300 filler lines, then the section heading and body. -/
def c3text : Text :=
  joinNl (List.replicate 300 ['x'] ++
    [("Security Considerations").data, ("It is fine.").data])

set_option maxRecDepth 40000

/-- Counterexample to claim C3 as stated: the document contains a
`Security Considerations` section (after the 300-line prefix), yet the prompt
submitted by `generate_tldr` does not contain that heading at all — no
named-section search happens and no supplementary excerpt is combined into
the prompt. -/
theorem c3_counterexample :
    containsSub (("Security Considerations").data) c3text = true ∧
    containsSub (("Security Considerations").data) (tldr_user_prompt 2616 c3text) = false := by
  constructor <;> decide

/-- Claim C3 amended: for every RFC number and document text, `generate_tldr`
submits a prompt consisting of the RFC-number header followed by a single
bounded excerpt — the first 300 lines of the normalized text; that excerpt is
at most 300 lines and (for carriage-return-free normalized text) a literal
prefix of the normalized document; no named section is located and nothing
else enters the prompt. -/
theorem c3_bounded_context (n : Nat) (text : Text) :
    tldr_user_prompt n text =
      ("Summarize RFC ").data ++ natChars n ++ (":\n\n").data ++ tldr_context text ∧
    (splitNl (tldr_context text)).length ≤ 300 ∧
    ('\r' ∉ clean_rfc_text text →
      ∃ rest, clean_rfc_text text = tldr_context text ++ rest) := by
  refine ⟨rfl, ?_, ?_⟩
  · unfold tldr_context
    by_cases hne : (rustLines (clean_rfc_text text)).take 300 = []
    · rw [hne]
      simp [joinNl, splitNl]
    · rw [splitNl_joinNl _ hne
        (fun l hl => no_nl_of_mem_rustLines (List.take_subset _ _ hl))]
      exact List.length_take_le _ _
  · intro hcr
    unfold tldr_context
    have hstrip : ∀ l₀ ∈ splitNl (clean_rfc_text text), stripCR l₀ = l₀ := by
      intro l₀ hl₀
      unfold stripCR
      rw [if_neg]
      intro hgl
      exact hcr (mem_of_mem_line hl₀ (mem_of_getLast?_eq hgl))
    have hrl : rustLines (clean_rfc_text text) =
        (if (splitNl (clean_rfc_text text)).getLast? = some [] then
          (splitNl (clean_rfc_text text)).dropLast
         else splitNl (clean_rfc_text text)) := by
      unfold rustLines
      split
      · rename_i hemp
        have hv : clean_rfc_text text = [] := by
          simpa using hemp
        rw [hv]
        simp [splitNl]
      · have hsub : ∀ l ∈ (if (splitNl (clean_rfc_text text)).getLast? = some [] then
            (splitNl (clean_rfc_text text)).dropLast
          else splitNl (clean_rfc_text text)), stripCR l = l := by
          intro l hl
          split at hl
          · exact hstrip l (mem_of_mem_dropLast hl)
          · exact hstrip l hl
        rw [List.map_congr_left hsub]
        simp
    obtain ⟨m, hm⟩ : ∃ m, (if (splitNl (clean_rfc_text text)).getLast? = some [] then
        (splitNl (clean_rfc_text text)).dropLast
       else splitNl (clean_rfc_text text)) = (splitNl (clean_rfc_text text)).take m := by
      split
      · exact ⟨(splitNl (clean_rfc_text text)).length - 1, List.dropLast_eq_take _⟩
      · exact ⟨(splitNl (clean_rfc_text text)).length, (List.take_length _).symm⟩
    rw [hrl, hm, List.take_take]
    obtain ⟨rest, hrest⟩ := joinNl_take_append (splitNl (clean_rfc_text text)) (min 300 m)
    rw [joinNl_splitNl] at hrest
    exact ⟨rest, hrest⟩

/-- Witness for C3 (amended) at a concrete text: the context is a prefix of
the normalized document. -/
theorem c3_bounded_context_witness :
    ∃ rest, clean_rfc_text (("one\ntwo").data) =
      tldr_context (("one\ntwo").data) ++ rest :=
  (c3_bounded_context 1 (("one\ntwo").data)).2.2 (by decide)
